import Mathlib

/-!
Shallow embedding of the wubi dictionary builder (src/cn_dicts/wubi.encoded.py).

Strings are modelled as `List Char` (`Str`), the single-character code table
(a Python dict built by `read_single_char_codes`) as an association list with
first-match lookup, and the phrase-weight dict likewise.  File contents are
lists of lines; file appends are list appends; the success/failure of an
append is an explicit boolean input.  The pypinyin transform used by rule 6
is an external collaborator and is passed in as a function parameter.
-/

abbrev Str := List Char

/-- Code table: single character to its base code (Python dict as assoc list,
first match wins, mirroring dict lookup after load). -/
abbrev CodeTable := List (Char × Str)

/-- Phrase-weight table: phrase to weight string. -/
abbrev WeightMap := List (Str × Str)

/-- Python `char_codes.get(c)`: dict lookup. -/
def lookupTable (cc : CodeTable) (c : Char) : Option Str :=
  match cc with
  | [] => none
  | (k, v) :: rest => if k = c then some v else lookupTable rest c

/-- Python `phrase_weights.get(p)` / `p in phrase_weights`. -/
def lookupW (pw : WeightMap) (p : Str) : Option Str :=
  match pw with
  | [] => none
  | (k, v) :: rest => if k = p then some v else lookupW rest p

/-- Python `phrase_weights[p] = v` when the key is already present:
replace the value at the first occurrence of the key. -/
def updateW (pw : WeightMap) (p v : Str) : WeightMap :=
  match pw with
  | [] => []
  | (k, v') :: rest => if k = p then (k, v) :: rest else (k, v') :: updateW rest p v

/-- The character class of the regex `[一-鿿]` used by
`extract_chinese_chars`. -/
def isChineseChar (c : Char) : Bool :=
  decide (0x4e00 ≤ c.toNat ∧ c.toNat ≤ 0x9fff)

/-- `extract_chinese_chars`: keep exactly the characters matched by
`re.findall(r'[一-鿿]', text)`. -/
def extract_chinese_chars (text : Str) : Str :=
  text.filter isChineseChar

/-- An ASCII decimal digit.  (Python's `\d` also matches other Unicode
decimal digits; the inputs in this development are ASCII.) -/
def isDigitChar (c : Char) : Bool :=
  decide (48 ≤ c.toNat ∧ c.toNat ≤ 57)

/-- The regex check `re.match(r'^\d+$', s)`: non-empty, digits only. -/
def isDigitsOnly (s : Str) : Bool :=
  !s.isEmpty && s.all isDigitChar

/-- Decimal value of a digit string, as computed by Python `int` on a
string of digits. -/
def strToNat (s : Str) : Nat :=
  s.foldl (fun acc c => acc * 10 + (c.toNat - 48)) 0

/-- Python `s.strip()`: drop whitespace from both ends. -/
def pyStrip (s : Str) : Str :=
  ((s.reverse.dropWhile Char.isWhitespace).reverse).dropWhile Char.isWhitespace

/-- Python `s.split('\t')`: split on every tab, keeping empty fields. -/
def splitTab (s : Str) : List Str :=
  match s with
  | [] => [[]]
  | c :: rest =>
    if c = '\t' then [] :: splitTab rest
    else
      match splitTab rest with
      | [] => [[c]]
      | h :: t => (c :: h) :: t

/-- Python `int(s)` on an arbitrary string: strip, optional sign, then a
non-empty run of digits, else a ValueError (`none`).  (Underscore digit
grouping, accepted by Python since 3.6, is not exercised here.) -/
def pyIntParse (s : Str) : Option Int :=
  match pyStrip s with
  | [] => none
  | c :: rest =>
    if c = '+' then (if isDigitsOnly rest then some ((strToNat rest : Int)) else none)
    else if c = '-' then (if isDigitsOnly rest then some (-(strToNat rest : Int)) else none)
    else if isDigitsOnly (c :: rest) then some ((strToNat (c :: rest) : Int)) else none

/-- `Config.DEFAULT_WEIGHT = "100"`. -/
def defaultWeight : Str := ['1', '0', '0']

/-- `get_first_code`: first character of the stored code, `"x"` when the
character is absent or its code is empty. -/
def get_first_code (c : Char) (cc : CodeTable) : Str :=
  let code := (lookupTable cc c).getD []
  if code = [] then ['x'] else code.take 1

/-- `get_first_two_codes`: first two characters of the stored code,
padded with `"x"` for a one-character code, `"xx"` when absent. -/
def get_first_two_codes (c : Char) (cc : CodeTable) : Str :=
  let code := (lookupTable cc c).getD []
  if 2 ≤ code.length then (code.take 2).map Char.toLower
  else if code.length = 1 then code.map Char.toLower ++ ['x']
  else ['x', 'x']

/-- `rule_standard_wubi` (rule 1).  The Python code raises IndexError on an
empty phrase (callers never pass one); the `[]` case here returns `[]`. -/
def rule_standard_wubi (phrase : Str) (cc : CodeTable) : Str :=
  match phrase with
  | [c] => ((lookupTable cc c).getD ['x', 'x', 'x', 'x']).map Char.toLower
  | [c1, c2] =>
      ((get_first_two_codes c1 cc ++ get_first_two_codes c2 cc).take 4).map Char.toLower
  | [c1, c2, c3] =>
      ((get_first_code c1 cc ++ get_first_code c2 cc ++ get_first_two_codes c3 cc).take 4).map
        Char.toLower
  | [c1, c2, c3, c4] =>
      ((([c1, c2, c3, c4].map (fun c => get_first_code c cc)).flatten).take 4).map Char.toLower
  | c1 :: c2 :: c3 :: rest =>
      ((get_first_code c1 cc ++ get_first_code c2 cc ++ get_first_code c3 cc
          ++ get_first_code ((c1 :: c2 :: c3 :: rest).getLastD 'x') cc).take 4).map Char.toLower
  | [] => []

/-- `rule_one_code_per_char` (rule 2). -/
def rule_one_code_per_char (phrase : Str) (cc : CodeTable) : Str :=
  match phrase with
  | [c] => ((lookupTable cc c).getD ['x', 'x', 'x', 'x']).map Char.toLower
  | [c1, c2] =>
      ((get_first_two_codes c1 cc ++ get_first_two_codes c2 cc).take 4).map Char.toLower
  | [c1, c2, c3] =>
      ((get_first_code c1 cc ++ get_first_code c2 cc ++ get_first_two_codes c3 cc).take 4).map
        Char.toLower
  | other => (((other.map (fun c => get_first_code c cc)).flatten).take 4).map Char.toLower

/-- `rule_first_two_chars_two_codes_rest_one` (rule 3). -/
def rule_first_two_chars_two_codes_rest_one (phrase : Str) (cc : CodeTable) : Str :=
  match phrase with
  | [c] => ((lookupTable cc c).getD ['x', 'x', 'x', 'x']).map Char.toLower
  | [c1, c2] =>
      ((get_first_two_codes c1 cc ++ get_first_two_codes c2 cc).take 4).map Char.toLower
  | other =>
      let head2 := (other.take 2).map (fun c => get_first_two_codes c cc)
      let rest1 := (other.drop 2).map (fun c => get_first_code c cc)
      (((head2 ++ rest1).flatten).take 4).map Char.toLower

/-- The accumulation loop of `rule_all_two_codes`: collect two-code chunks
until 4 code units are filled, truncating the last chunk if needed. -/
def r4loop (cc : CodeTable) : Str → Nat → List Str
  | [], _ => []
  | c :: rest, total =>
    if 4 ≤ total then []
    else
      let two := get_first_two_codes c cc
      let remaining := 4 - total
      if two.length ≤ remaining then two :: r4loop cc rest (total + two.length)
      else two.take remaining :: r4loop cc rest (total + remaining)

/-- `rule_all_two_codes` (rule 4): accumulate, pad with `"x"` to 4, cap at 4. -/
def rule_all_two_codes (phrase : Str) (cc : CodeTable) : Str :=
  let result := (r4loop cc phrase 0).flatten
  let padded := if result.length < 4 then result ++ List.replicate (4 - result.length) 'x' else result
  (padded.take 4).map Char.toLower

/-- `rule_free_coding` (rule 5): the engine returns the empty code; the
caller must supply one. -/
def rule_free_coding (_phrase : Str) (_cc : CodeTable) : Str := []

/-- `get_pinyin_initials`: only the chinese characters are transformed; the
pypinyin `lazy_pinyin` transform is an external collaborator supplied as the
parameter `py` (its failure modes correspond to `py` returning `[]`). -/
def get_pinyin_initials (py : Str → Str) (text : Str) : Str :=
  let chinese := extract_chinese_chars text
  if chinese = [] then [] else (py chinese).map Char.toLower

/-- `rule_wubi_pinyin_initials` (rule 6): rule-1 code plus pinyin initials. -/
def rule_wubi_pinyin_initials (py : Str → Str) (phrase : Str) (cc : CodeTable) : Str :=
  let wubi_code := rule_standard_wubi phrase cc
  let pinyin_initials := get_pinyin_initials py phrase
  if pinyin_initials = [] then wubi_code else wubi_code ++ pinyin_initials

/-- `generate_wubi_code`: dispatch on the integer rule id; any id other
than 1-6 falls through to `rule_standard_wubi`; the result is lowercased. -/
def generate_wubi_code (py : Str → Str) (phrase : Str) (cc : CodeTable) (rule : Int) : Str :=
  (if rule = 1 then rule_standard_wubi phrase cc
   else if rule = 2 then rule_one_code_per_char phrase cc
   else if rule = 3 then rule_first_two_chars_two_codes_rest_one phrase cc
   else if rule = 4 then rule_all_two_codes phrase cc
   else if rule = 5 then rule_free_coding phrase cc
   else if rule = 6 then rule_wubi_pinyin_initials py phrase cc
   else rule_standard_wubi phrase cc).map Char.toLower

/-- `check_all_chars_exist`: `False` when the phrase has no chinese
characters, else every chinese character must be a key of the table. -/
def check_all_chars_exist (phrase : Str) (cc : CodeTable) : Bool :=
  let chinese := extract_chinese_chars phrase
  if chinese = [] then false
  else chinese.all (fun c => (lookupTable cc c).isSome)

/-- One line of `read_phrase_weights`: strip, skip blanks, split on tabs,
validate the weight with `^\d+$` (malformed compares as 0), and merge by
keeping the larger value, replacing an unparsable stored value outright. -/
def read_phrase_weights_line (pw : WeightMap) (rawLine : Str) : WeightMap :=
  let line := pyStrip rawLine
  if line = [] then pw
  else
    let parts := splitTab line
    if 2 ≤ parts.length then
      let phrase := parts.headD []
      let weight_str := pyStrip (parts.getD 1 [])
      let weight_int : Int := if isDigitsOnly weight_str then (strToNat weight_str : Int) else 0
      match lookupW pw phrase with
      | some existing =>
        match pyIntParse existing with
        | some existing_weight =>
          if existing_weight < weight_int then updateW pw phrase weight_str else pw
        | none => updateW pw phrase weight_str
      | none => pw ++ [(phrase, weight_str)]
    else pw

/-- `read_phrase_weights`: fold the per-line merge over the file. -/
def read_phrase_weights (lines : List Str) : WeightMap :=
  lines.foldl read_phrase_weights_line []

/-- Terminal outcomes of the per-phrase ingestion, mirroring the
`(bool, str)` results of `interactive_single_input`:
added / 已存在 / 包含未编码汉字 / 用户取消 / 不包含中文字符 / write failure. -/
inductive Outcome where
  | added (code : Str)
  | alreadyExists
  | uncodeableChars
  | userCancelled
  | noChinese
  | writeError
deriving DecidableEq

/-- The mutable state touched by the interactive path: the in-memory
existing-phrase set and the output dictionary file (phrase, code, weight). -/
structure InterState where
  existing : List Str
  output : List (Str × Str × Str)
deriving DecidableEq

/-- Lines 603-623 of the source: resolve the weight (re-validated against
`^\d+$`, defaulting to `"100"`), then append to the dictionary; on success
add the phrase to the in-memory set, on failure report the write error. -/
def interactive_finish (phrase code : Str) (pw : WeightMap) (writeOk : Bool)
    (st : InterState) : Outcome × InterState :=
  let weight0 := (lookupW pw phrase).getD defaultWeight
  let weight := if isDigitsOnly weight0 then weight0 else defaultWeight
  if writeOk then
    (Outcome.added code, ⟨phrase :: st.existing, st.output ++ [(phrase, code, weight)]⟩)
  else
    (Outcome.writeError, st)

/-- `interactive_single_input`.  The rule-5 re-prompt loop is modelled by
its result: `none` when the user cancels, `some code` for the first
accepted input (already lowercased and space-collapsed by the loop).  The
rule-6 and generic branches of the source are textually identical and are
merged here.  `writeOk` tells whether the dictionary append succeeds. -/
def interactive_single_input (py : Str → Str) (phrase : Str) (rule : Int)
    (cc : CodeTable) (pw : WeightMap) (ruleFivePrompt : Option Str)
    (writeOk : Bool) (st : InterState) : Outcome × InterState :=
  if phrase ∈ st.existing then (Outcome.alreadyExists, st)
  else if (rule ≠ 5 ∧ rule ≠ 6) ∧ check_all_chars_exist phrase cc = false then
    (Outcome.uncodeableChars, st)
  else if rule = 5 then
    match ruleFivePrompt with
    | none => (Outcome.userCancelled, st)
    | some code => interactive_finish phrase code pw writeOk st
  else
    let chinese := extract_chinese_chars phrase
    if chinese = [] then (Outcome.noChinese, st)
    else interactive_finish phrase (generate_wubi_code py chinese cc rule) pw writeOk st

/-- The mutable state of one batch run: in-memory sets, the two files, and
the aggregate counters. -/
structure BatchState where
  existing : List Str
  failSet : List Str
  outFile : List (Str × Str × Str)
  failFile : List Str
  totalLines : Nat
  addedCount : Nat
  failCount : Nat
  skippedCount : Nat
deriving DecidableEq

/-- The fail-file append of `file_batch_mode` (inside a `try`): when the
append succeeds the line is recorded in the fail file, counted, and added
to the in-memory fail set; when it fails nothing changes. -/
def batch_record_fail (st : BatchState) (line : Str) (failWriteOk : Bool) : BatchState :=
  if failWriteOk then
    { st with failFile := st.failFile ++ [line],
              failCount := st.failCount + 1,
              failSet := line :: st.failSet }
  else st

/-- The loop body of `file_batch_mode` (lines 771-856 of the source): strip,
skip blanks and known phrases, validate (rule 6: must contain chinese
characters; other rules: `check_all_chars_exist`), encode, resolve the
weight, and append — routing validation failures and dictionary write
errors to the fail file.  `outWriteOk` / `failWriteOk` tell whether appends
to the dictionary / fail file succeed. -/
def file_batch_process_line (rule : Int) (py : Str → Str) (cc : CodeTable)
    (pw : WeightMap) (outWriteOk failWriteOk : Bool) (st0 : BatchState)
    (rawLine : Str) : BatchState :=
  let st := { st0 with totalLines := st0.totalLines + 1 }
  let line := pyStrip rawLine
  if line = [] then st
  else if line ∈ st.existing then { st with skippedCount := st.skippedCount + 1 }
  else if line ∈ st.failSet then { st with skippedCount := st.skippedCount + 1 }
  else if rule = 6 ∧ extract_chinese_chars line = [] then
    batch_record_fail st line failWriteOk
  else if rule ≠ 6 ∧ check_all_chars_exist line cc = false then
    batch_record_fail st line failWriteOk
  else
    let chinese := extract_chinese_chars line
    if chinese = [] then { st with failCount := st.failCount + 1 }
    else
      let code := generate_wubi_code py chinese cc rule
      let weight0 := (lookupW pw line).getD defaultWeight
      let weight := if isDigitsOnly weight0 then weight0 else defaultWeight
      if outWriteOk then
        { st with outFile := st.outFile ++ [(line, code, weight)],
                  addedCount := st.addedCount + 1,
                  existing := line :: st.existing }
      else
        batch_record_fail st line failWriteOk

/-- What `file_batch_mode` returns and leaves on disk.  `ruleFiveError` is
the distinct entry error printed for rule 5. -/
structure BatchResult where
  outFile : List (Str × Str × Str)
  failFile : List Str
  addedCount : Nat
  failCount : Nat
  skippedCount : Nat
  ruleFiveError : Bool
deriving DecidableEq

/-- `file_batch_mode`: rule 5 is rejected at entry with zero counts and no
writes; otherwise the existing-phrase set is read off the dictionary file,
the fail set off the fail file, and the loop body is folded over the input
lines.  (The end-of-run blank-line normalization is the identity on the
structured file models used here.) -/
def file_batch_mode (rule : Int) (py : Str → Str) (cc : CodeTable) (pw : WeightMap)
    (outFile0 : List (Str × Str × Str)) (failFile0 : List Str)
    (inputLines : List Str) (outWriteOk failWriteOk : Bool) : BatchResult :=
  if rule = 5 then
    ⟨outFile0, failFile0, 0, 0, 0, true⟩
  else
    let st0 : BatchState :=
      ⟨outFile0.map (fun e => e.1),
       (failFile0.map pyStrip).filter (fun l => !l.isEmpty),
       outFile0, failFile0, 0, 0, 0, 0⟩
    let st := inputLines.foldl
      (file_batch_process_line rule py cc pw outWriteOk failWriteOk) st0
    ⟨st.outFile, st.failFile, st.addedCount, st.failCount, st.skippedCount, false⟩

/-- Number of dictionary lines carrying a given phrase. -/
def outputCount (st : InterState) (phrase : Str) : Nat :=
  st.output.countP (fun e => decide (e.1 = phrase))

/-- C1 counterexample: for the single-character phrase 打 whose stored code is
the one-letter code "a", rule 1 returns "a", whose length is 1, not 4 — the
code is returned unmodified, neither truncated nor padded to 4. -/
theorem rule1_single_length_counterexample :
    ¬ (rule_standard_wubi ['打'] [('打', ['a'])]).length = 4 := by decide

/-- C1 (amended): for a single-character phrase, rule 1 returns the
character's full stored code lowercased with no truncation or padding, so
the result length equals the stored code's length — 4 only when the stored
code itself has 4 characters, or when the character is absent and the
"xxxx" default is used. -/
theorem rule1_single_returns_full_stored_code (cc : CodeTable) (c : Char) :
    (rule_standard_wubi [c] cc).length
      = ((lookupTable cc c).getD ['x', 'x', 'x', 'x']).length := by
  simp [rule_standard_wubi]

/-- C7: a batch invocation with rule 5 is rejected at entry with the
distinct rule-5 error before any item is processed: the dictionary file and
the fail file are returned unchanged and the added/failed/skipped counts
are all zero. -/
theorem batch_rule_five_rejected_at_entry (py : Str → Str) (cc : CodeTable)
    (pw : WeightMap) (outFile0 : List (Str × Str × Str)) (failFile0 : List Str)
    (inputLines : List Str) (outWriteOk failWriteOk : Bool) :
    file_batch_mode 5 py cc pw outFile0 failFile0 inputLines outWriteOk failWriteOk
      = ⟨outFile0, failFile0, 0, 0, 0, true⟩ := by
  simp [file_batch_mode]

/-- C9: rule 4 always produces exactly 4 characters, for every phrase and
every code table — the accumulated chunks are padded with "x" below 4 and
capped at 4; in particular a single character with stored code "a" yields
"axxx". -/
theorem rule4_length_four_and_padding :
    (∀ (phrase : Str) (cc : CodeTable), (rule_all_two_codes phrase cc).length = 4)
    ∧ rule_all_two_codes ['打'] [('打', ['a'])] = ['a', 'x', 'x', 'x'] := by
  refine ⟨fun phrase cc => ?_, by decide⟩
  simp only [rule_all_two_codes]
  generalize (r4loop cc phrase 0).flatten = res
  split <;> simp <;> omega

/-- C10: every integer rule id outside 1-6 makes `generate_wubi_code`
fall back to the standard rule, returning exactly the rule-1 result. -/
theorem out_of_range_rule_falls_back_to_rule1 (py : Str → Str) (phrase : Str)
    (cc : CodeTable) (rule : Int) (h : rule < 1 ∨ 6 < rule) :
    generate_wubi_code py phrase cc rule = generate_wubi_code py phrase cc 1 := by
  have h1 : ¬ rule = 1 := by rcases h with h | h <;> omega
  have h2 : ¬ rule = 2 := by rcases h with h | h <;> omega
  have h3 : ¬ rule = 3 := by rcases h with h | h <;> omega
  have h4 : ¬ rule = 4 := by rcases h with h | h <;> omega
  have h5 : ¬ rule = 5 := by rcases h with h | h <;> omega
  have h6 : ¬ rule = 6 := by rcases h with h | h <;> omega
  simp [generate_wubi_code, h1, h2, h3, h4, h5, h6]

/-- C10 witness: rule id 7 behaves exactly like rule 1 on a concrete input. -/
theorem out_of_range_rule_falls_back_to_rule1_witness :
    ((7 : Int) < 1 ∨ (6 : Int) < 7)
    ∧ generate_wubi_code (fun _ => []) ['打'] [('打', ['a', 'b', 'c', 'd'])] 7
      = generate_wubi_code (fun _ => []) ['打'] [('打', ['a', 'b', 'c', 'd'])] 1 :=
  ⟨by decide,
   out_of_range_rule_falls_back_to_rule1 (fun _ => []) ['打']
     [('打', ['a', 'b', 'c', 'd'])] 7 (by decide)⟩

/-- C8: for a two-character phrase whose stored codes both have at least
two (lowercase) letters, rule 1 concatenates the first two letters of each
code, truncated to 4. -/
theorem rule1_two_char_firstTwo_concat (cc : CodeTable) (c1 c2 a b a' b' : Char)
    (r1 r2 : Str)
    (h1 : lookupTable cc c1 = some (a :: b :: r1))
    (h2 : lookupTable cc c2 = some (a' :: b' :: r2))
    (ha : a.toLower = a) (hb : b.toLower = b)
    (ha' : a'.toLower = a') (hb' : b'.toLower = b') :
    rule_standard_wubi [c1, c2] cc = [a, b, a', b'] := by
  simp [rule_standard_wubi, get_first_two_codes, h1, h2, ha, hb, ha', hb',
    List.take]

/-- C8 witness: with base codes "abcd" and "efgh", the two-character phrase
encodes to "abef". -/
theorem rule1_two_char_firstTwo_concat_witness :
    lookupTable [('打', ['a', 'b', 'c', 'd']), ('字', ['e', 'f', 'g', 'h'])] '打'
        = some ['a', 'b', 'c', 'd']
    ∧ rule_standard_wubi ['打', '字']
        [('打', ['a', 'b', 'c', 'd']), ('字', ['e', 'f', 'g', 'h'])]
        = ['a', 'b', 'e', 'f'] :=
  ⟨by decide,
   rule1_two_char_firstTwo_concat
     [('打', ['a', 'b', 'c', 'd']), ('字', ['e', 'f', 'g', 'h'])]
     '打' '字' 'a' 'b' 'e' 'f' ['c', 'd'] ['g', 'h']
     (by decide) (by decide) (by decide) (by decide) (by decide) (by decide)⟩

/-- C3 counterexample: the phrase "abc" has no codeable characters, yet
under rule 1 the pipeline answers with the uncodeable-characters rejection,
not the no-codeable-characters one. -/
theorem no_codeable_chars_outcome_counterexample :
    (interactive_single_input (fun _ => []) ['a', 'b', 'c'] 1 [] [] none true
        ⟨[], []⟩).1 = Outcome.uncodeableChars
    ∧ ¬ (interactive_single_input (fun _ => []) ['a', 'b', 'c'] 1 [] [] none true
        ⟨[], []⟩).1 = Outcome.noChinese := by decide

/-- C3 (amended): for a phrase with no codeable characters, under a rule
other than 5 and 6, the pipeline returns the uncodeable-characters
rejection: `check_all_chars_exist` answers false on a phrase with no
chinese characters, so the step-3 check is not vacuously satisfied and the
no-codeable-characters outcome is unreachable for these rules. -/
theorem no_codeable_chars_yields_uncodeable (py : Str → Str) (phrase : Str)
    (rule : Int) (cc : CodeTable) (pw : WeightMap) (prompt : Option Str)
    (writeOk : Bool) (st : InterState)
    (hmem : phrase ∉ st.existing)
    (hnoch : extract_chinese_chars phrase = [])
    (hrule : rule ≠ 5 ∧ rule ≠ 6) :
    (interactive_single_input py phrase rule cc pw prompt writeOk st).1
      = Outcome.uncodeableChars := by
  have hchk : check_all_chars_exist phrase cc = false := by
    simp [check_all_chars_exist, hnoch]
  simp [interactive_single_input, hmem, hchk, hrule.1, hrule.2]

/-- C3 witness: the amended statement at the concrete phrase "ab9". -/
theorem no_codeable_chars_yields_uncodeable_witness :
    ¬ (['a', 'b', '9'] : Str) ∈ ([] : List Str)
    ∧ extract_chinese_chars ['a', 'b', '9'] = []
    ∧ ((1 : Int) ≠ 5 ∧ (1 : Int) ≠ 6)
    ∧ (interactive_single_input (fun _ => []) ['a', 'b', '9'] 1 [('打', ['a'])] []
        none true ⟨[], []⟩).1 = Outcome.uncodeableChars :=
  ⟨by decide, by decide, by decide,
   no_codeable_chars_yields_uncodeable (fun _ => []) ['a', 'b', '9'] 1
     [('打', ['a'])] [] none true ⟨[], []⟩ (by decide) (by decide) (by decide)⟩

/-- Helper: the only way `interactive_finish` reports `added` is the
successful-append branch, which conses the phrase onto the in-memory set
and appends exactly one dictionary line for it. -/
theorem interactive_finish_added (phrase c : Str) (pw : WeightMap) (writeOk : Bool)
    (st st1 : InterState) (code : Str)
    (h : interactive_finish phrase c pw writeOk st = (Outcome.added code, st1)) :
    st1.existing = phrase :: st.existing
    ∧ ∃ w, st1.output = st.output ++ [(phrase, code, w)] := by
  unfold interactive_finish at h
  split at h
  · rw [Prod.mk.injEq] at h
    obtain ⟨hc, hst⟩ := h
    injection hc with hc
    subst hc
    subst hst
    exact ⟨rfl, _, rfl⟩
  · simp at h

/-- C6: whenever a first run of the per-phrase pipeline accepts a phrase
(outcome `added`) starting from a store holding no line for it, an
immediate second run with the same phrase is answered `alreadyExists`
with the state untouched, and the dictionary holds exactly one line for
the phrase — acceptance updates the in-memory set consulted by later
duplicate checks at once. -/
theorem pipeline_idempotent_rerun (py : Str → Str) (phrase : Str) (rule : Int)
    (cc : CodeTable) (pw : WeightMap) (prompt : Option Str) (writeOk : Bool)
    (st st1 : InterState) (code : Str)
    (h1 : interactive_single_input py phrase rule cc pw prompt writeOk st
            = (Outcome.added code, st1))
    (h0 : outputCount st phrase = 0) :
    interactive_single_input py phrase rule cc pw prompt writeOk st1
        = (Outcome.alreadyExists, st1)
    ∧ outputCount st1 phrase = 1 := by
  have key : st1.existing = phrase :: st.existing
      ∧ ∃ w, st1.output = st.output ++ [(phrase, code, w)] := by
    simp only [interactive_single_input] at h1
    split at h1
    · simp at h1
    · split at h1
      · simp at h1
      · split at h1
        · cases prompt with
          | none => simp at h1
          | some c => exact interactive_finish_added _ _ _ _ _ _ _ h1
        · split at h1
          · simp at h1
          · exact interactive_finish_added _ _ _ _ _ _ _ h1
  obtain ⟨hex, w, hout⟩ := key
  have hmem : phrase ∈ st1.existing := by
    rw [hex]; exact List.mem_cons_self _ _
  refine ⟨by simp [interactive_single_input, hmem], ?_⟩
  have h0' : st.output.countP (fun e => decide (e.1 = phrase)) = 0 := h0
  simp [outputCount, hout, List.countP_append, h0']

/-- C6 witness: adding 打 to an empty store, then re-running, on concrete
inputs. -/
theorem pipeline_idempotent_rerun_witness :
    interactive_single_input (fun _ => []) ['打'] 1 [('打', ['a', 'b', 'c', 'd'])]
        [] none true ⟨[['打']], [(['打'], ['a', 'b', 'c', 'd'], ['1', '0', '0'])]⟩
      = (Outcome.alreadyExists,
          ⟨[['打']], [(['打'], ['a', 'b', 'c', 'd'], ['1', '0', '0'])]⟩)
    ∧ outputCount ⟨[['打']], [(['打'], ['a', 'b', 'c', 'd'], ['1', '0', '0'])]⟩ ['打'] = 1 :=
  pipeline_idempotent_rerun (fun _ => []) ['打'] 1 [('打', ['a', 'b', 'c', 'd'])]
    [] none true ⟨[], []⟩
    ⟨[['打']], [(['打'], ['a', 'b', 'c', 'd'], ['1', '0', '0'])]⟩
    ['a', 'b', 'c', 'd'] (by decide) (by decide)

/-- C2 counterexample: in batch mode with rule 1, when the dictionary
append fails for the (perfectly codeable) phrase 打, the phrase IS written
to the fail file — a write error is not kept out of the fail-record file. -/
theorem write_error_reaches_fail_file :
    (file_batch_process_line 1 (fun _ => []) [('打', ['a', 'b', 'c', 'd'])] []
        false true ⟨[], [], [], [], 0, 0, 0, 0⟩ ['打']).failFile = [['打']] := by
  decide

/-- C2 (amended): per item, a validation failure (no chinese characters
under rule 6, uncodeable characters under the other batch rules) is routed
to the fail-record file, and a dictionary write error is ALSO routed to the
fail-record file; only a user cancellation is never recorded — it arises
only in the interactive rule-5 path, which returns with the state
untouched. -/
theorem fail_file_routing_amended :
    (∀ (rule : Int) (py : Str → Str) (cc : CodeTable) (pw : WeightMap)
        (outWriteOk : Bool) (st : BatchState) (line : Str),
      pyStrip line = line → line ≠ [] → line ∉ st.existing → line ∉ st.failSet →
      rule ≠ 5 →
      ((rule = 6 ∧ extract_chinese_chars line = [])
        ∨ (rule ≠ 6 ∧ check_all_chars_exist line cc = false)
        ∨ outWriteOk = false) →
      line ∈ (file_batch_process_line rule py cc pw outWriteOk true st line).failFile)
    ∧ (∀ (py : Str → Str) (phrase : Str) (cc : CodeTable) (pw : WeightMap)
        (writeOk : Bool) (st : InterState),
      phrase ∉ st.existing →
      interactive_single_input py phrase 5 cc pw none writeOk st
        = (Outcome.userCancelled, st)) := by
  constructor
  · intro rule py cc pw outOk st line hstrip hne hex hfs hr5 hcase
    rcases hcase with ⟨h6, hch⟩ | ⟨h6, hchk⟩ | hout
    · simp [file_batch_process_line, hstrip, hne, hex, hfs, h6, hch,
        batch_record_fail]
    · simp [file_batch_process_line, hstrip, hne, hex, hfs, h6, hchk,
        batch_record_fail]
    · subst hout
      by_cases h6 : rule = 6
      · by_cases hch : extract_chinese_chars line = []
        · simp [file_batch_process_line, hstrip, hne, hex, hfs, h6, hch,
            batch_record_fail]
        · simp [file_batch_process_line, hstrip, hne, hex, hfs, h6, hch,
            batch_record_fail]
      · by_cases hchk : check_all_chars_exist line cc = false
        · simp [file_batch_process_line, hstrip, hne, hex, hfs, h6, hchk,
            batch_record_fail]
        · have hch : ¬ extract_chinese_chars line = [] := fun h =>
            hchk (by simp [check_all_chars_exist, h])
          simp [file_batch_process_line, hstrip, hne, hex, hfs, h6, hchk, hch,
            batch_record_fail]
  · intro py phrase cc pw wOk st hmem
    simp [interactive_single_input, hmem]

/-- C2 witness: a validation failure lands in the fail file, and a rule-5
cancellation leaves the state untouched, on concrete inputs. -/
theorem fail_file_routing_amended_witness :
    (['咖'] : Str) ∈ (file_batch_process_line 1 (fun _ => []) [] [] true true
        ⟨[], [], [], [], 0, 0, 0, 0⟩ ['咖']).failFile
    ∧ interactive_single_input (fun _ => []) ['啡'] 5 [] [] none false ⟨[], []⟩
        = (Outcome.userCancelled, ⟨[], []⟩) :=
  ⟨fail_file_routing_amended.1 1 (fun _ => []) [] [] true
     ⟨[], [], [], [], 0, 0, 0, 0⟩ ['咖'] (by decide) (by decide) (by decide)
     (by decide) (by decide) (Or.inr (Or.inl (by decide))),
   fail_file_routing_amended.2 (fun _ => []) ['啡'] [] [] false ⟨[], []⟩ (by decide)⟩

theorem isDigitChar_bounds {c : Char} (h : isDigitChar c = true) :
    48 ≤ c.toNat ∧ c.toNat ≤ 57 := by
  simpa [isDigitChar] using h

theorem digit_not_whitespace {c : Char} (h : isDigitChar c = true) :
    c.isWhitespace = false := by
  simp only [Char.isWhitespace, Bool.or_eq_false_iff, decide_eq_false_iff_not]
  refine ⟨⟨⟨?_, ?_⟩, ?_⟩, ?_⟩ <;> intro hc <;> subst hc <;> exact absurd h (by decide)

theorem digit_not_tab {c : Char} (h : isDigitChar c = true) : ¬ c = '\t' := by
  intro hc; subst hc; exact absurd h (by decide)

theorem isDigitsOnly_facts {w : Str} (h : isDigitsOnly w = true) :
    w ≠ [] ∧ ∀ c ∈ w, isDigitChar c = true := by
  simp only [isDigitsOnly, Bool.and_eq_true, Bool.not_eq_true', List.isEmpty_eq_false,
    List.all_eq_true] at h
  exact h

/-- A string with a non-whitespace first character and a non-whitespace
last character is left unchanged by `strip`. -/
theorem pyStrip_eq_self {s : Str}
    (h1 : ∀ c ∈ s.take 1, c.isWhitespace = false)
    (h2 : ∀ c, s.getLast? = some c → c.isWhitespace = false) :
    pyStrip s = s := by
  unfold pyStrip
  have hrev : s.reverse.dropWhile Char.isWhitespace = s.reverse := by
    cases hr : s.reverse with
    | nil => simp
    | cons a t =>
      have ha : s.getLast? = some a := by
        rw [← List.head?_reverse, hr]; rfl
      simp [List.dropWhile_cons, h2 a ha]
  rw [hrev, List.reverse_reverse]
  cases s with
  | nil => simp
  | cons b t => simp [List.dropWhile_cons, h1 b (by simp)]

theorem splitTab_no_tab : ∀ (s : Str), (∀ c ∈ s, ¬ c = '\t') → splitTab s = [s]
  | [], _ => rfl
  | c :: rest, h => by
    have hc : ¬ c = '\t' := h c (by simp)
    have ih := splitTab_no_tab rest (fun x hx => h x (by simp [hx]))
    simp [splitTab, hc, ih]

/-- Splitting `p ++ "\t" ++ w` on tabs recovers the two fields when
neither field contains a tab. -/
theorem splitTab_weightLine (p w : Str) (hp : ∀ c ∈ p, ¬ c = '\t')
    (hw : ∀ c ∈ w, ¬ c = '\t') : splitTab (p ++ '\t' :: w) = [p, w] := by
  induction p with
  | nil => simp [splitTab, splitTab_no_tab w hw]
  | cons c p ih =>
    have hc : ¬ c = '\t' := hp c (by simp)
    have ih' := ih (fun x hx => hp x (by simp [hx]))
    simp [splitTab, hc, ih']

theorem pyStrip_no_ws {w : Str} (hnws : ∀ c ∈ w, c.isWhitespace = false) :
    pyStrip w = w := by
  apply pyStrip_eq_self
  · exact fun c hc => hnws c (List.mem_of_mem_take hc)
  · intro c hc
    exact hnws c (List.mem_of_mem_getLast? (Option.mem_def.mpr hc))

theorem pyIntParse_digits {w : Str} (h : isDigitsOnly w = true) :
    pyIntParse w = some ((strToNat w : Int)) := by
  obtain ⟨hne, hd⟩ := isDigitsOnly_facts h
  unfold pyIntParse
  rw [pyStrip_no_ws (fun c hc => digit_not_whitespace (hd c hc))]
  cases w with
  | nil => exact absurd rfl hne
  | cons c rest =>
    have hc := hd c (by simp)
    have hplus : ¬ c = '+' := by intro hh; subst hh; exact absurd hc (by decide)
    have hminus : ¬ c = '-' := by intro hh; subst hh; exact absurd hc (by decide)
    simp [hplus, hminus, h]

theorem lookupW_updateW_self : ∀ (pw : WeightMap) (p v w : Str),
    lookupW pw p = some v → lookupW (updateW pw p w) p = some w
  | [], p, v, w, h => by simp [lookupW] at h
  | (k, v') :: rest, p, v, w, h => by
    by_cases hk : k = p
    · simp [updateW, lookupW, hk]
    · simp only [lookupW, if_neg hk] at h
      simp only [updateW, if_neg hk, lookupW]
      exact lookupW_updateW_self rest p v w h

/-- A weight-table line `phrase TAB weight`. -/
def weightLine (p w : Str) : Str := p ++ '\t' :: w

/-- Parsing a well-formed weight-table line (no tab inside either field, no
whitespace at the line's ends) recovers the two fields, and the merge then
follows the source: a new phrase stores the weight string as given; an
existing entry is replaced exactly when its parsed value is smaller than
the new line's value (malformed new weights compare as 0, an unparsable
stored value is replaced outright). -/
theorem weightLine_step (p w : Str) (pw : WeightMap)
    (hpne : p ≠ []) (hpt : ∀ c ∈ p, ¬ c = '\t')
    (hph : ∀ c ∈ p.take 1, c.isWhitespace = false)
    (hwne : w ≠ []) (hwt : ∀ c ∈ w, ¬ c = '\t')
    (hwnws : ∀ c ∈ w, c.isWhitespace = false) :
    read_phrase_weights_line pw (weightLine p w)
      = match lookupW pw p with
        | some existing =>
          match pyIntParse existing with
          | some e =>
            if e < (if isDigitsOnly w then ((strToNat w : Int)) else 0)
            then updateW pw p w else pw
          | none => updateW pw p w
        | none => pw ++ [(p, w)] := by
  obtain ⟨ph, pt, rfl⟩ : ∃ ph pt, p = ph :: pt := by
    cases p with
    | nil => exact absurd rfl hpne
    | cons ph pt => exact ⟨ph, pt, rfl⟩
  have hlast : (weightLine (ph :: pt) w).getLast? = some (w.getLast hwne) := by
    have hw' : w.dropLast ++ [w.getLast hwne] = w := List.dropLast_append_getLast hwne
    unfold weightLine
    conv_lhs => rw [← hw']
    rw [show (ph :: pt) ++ '\t' :: (w.dropLast ++ [w.getLast hwne])
          = ((ph :: pt) ++ '\t' :: w.dropLast) ++ [w.getLast hwne] by simp]
    exact List.getLast?_concat _
  have hstrip : pyStrip (weightLine (ph :: pt) w) = weightLine (ph :: pt) w := by
    apply pyStrip_eq_self
    · intro x hx
      simp only [weightLine, List.cons_append, List.take_succ_cons, List.take_zero,
        List.mem_singleton] at hx
      subst hx
      exact hph _ (by simp)
    · intro c hc
      rw [hlast] at hc
      injection hc with hc
      subst hc
      exact hwnws _ (List.getLast_mem hwne)
  have hsplit : splitTab (weightLine (ph :: pt) w) = [ph :: pt, w] :=
    splitTab_weightLine _ w hpt hwt
  have hwstrip : pyStrip w = w := pyStrip_no_ws hwnws
  simp only [read_phrase_weights_line, weightLine] at *
  rw [hstrip, hsplit]
  simp [hwstrip]

theorem weightLine_step_digits_some (p w v : Str) (pw : WeightMap)
    (hpne : p ≠ []) (hpt : ∀ c ∈ p, ¬ c = '\t')
    (hph : ∀ c ∈ p.take 1, c.isWhitespace = false)
    (hw : isDigitsOnly w = true) (hv : isDigitsOnly v = true)
    (hlk : lookupW pw p = some v) :
    read_phrase_weights_line pw (weightLine p w)
      = if strToNat v < strToNat w then updateW pw p w else pw := by
  obtain ⟨hwne, hwd⟩ := isDigitsOnly_facts hw
  rw [weightLine_step p w pw hpne hpt hph hwne
        (fun c hc => digit_not_tab (hwd c hc))
        (fun c hc => digit_not_whitespace (hwd c hc))]
  simp only [hlk, pyIntParse_digits hv, hw, if_true]
  norm_cast

theorem weightLine_step_digits_none (p w : Str) (pw : WeightMap)
    (hpne : p ≠ []) (hpt : ∀ c ∈ p, ¬ c = '\t')
    (hph : ∀ c ∈ p.take 1, c.isWhitespace = false)
    (hw : isDigitsOnly w = true)
    (hlk : lookupW pw p = none) :
    read_phrase_weights_line pw (weightLine p w) = pw ++ [(p, w)] := by
  obtain ⟨hwne, hwd⟩ := isDigitsOnly_facts hw
  rw [weightLine_step p w pw hpne hpt hph hwne
        (fun c hc => digit_not_tab (hwd c hc))
        (fun c hc => digit_not_whitespace (hwd c hc))]
  simp [hlk]

/-- Folding further all-numeric lines for the same phrase over a store
already holding a numeric value for it keeps a numeric value whose
magnitude is the running maximum. -/
theorem read_weights_fold_digits (p : Str)
    (hpne : p ≠ []) (hpt : ∀ c ∈ p, ¬ c = '\t')
    (hph : ∀ c ∈ p.take 1, c.isWhitespace = false) :
    ∀ (ws : List Str) (pw : WeightMap) (v : Str),
      (∀ w ∈ ws, isDigitsOnly w = true) →
      lookupW pw p = some v → isDigitsOnly v = true →
      ∃ v', lookupW (List.foldl read_phrase_weights_line pw (ws.map (weightLine p))) p
              = some v'
        ∧ isDigitsOnly v' = true
        ∧ strToNat v' = (ws.map strToNat).foldl max (strToNat v)
  | [], pw, v, _, hlk, hv => ⟨v, by simpa using hlk, hv, by simp⟩
  | w :: rest, pw, v, hws, hlk, hv => by
    have hw : isDigitsOnly w = true := hws w (by simp)
    have hrest : ∀ x ∈ rest, isDigitsOnly x = true := fun x hx => hws x (by simp [hx])
    simp only [List.map_cons, List.foldl_cons]
    rw [weightLine_step_digits_some p w v pw hpne hpt hph hw hv hlk]
    by_cases hlt : strToNat v < strToNat w
    · rw [if_pos hlt]
      obtain ⟨v', h1, h2, h3⟩ := read_weights_fold_digits p hpne hpt hph rest
        (updateW pw p w) w hrest (lookupW_updateW_self pw p v w hlk) hw
      refine ⟨v', h1, h2, ?_⟩
      rw [show max (strToNat v) (strToNat w) = strToNat w from by omega]
      exact h3
    · rw [if_neg hlt]
      obtain ⟨v', h1, h2, h3⟩ := read_weights_fold_digits p hpne hpt hph rest
        pw v hrest hlk hv
      refine ⟨v', h1, h2, ?_⟩
      rw [show max (strToNat v) (strToNat w) = strToNat v from by omega]
      exact h3

/-- Loading a weight table consisting of all-numeric lines for one phrase
stores a numeric value equal to the maximum of the observed values. -/
theorem read_phrase_weights_digits_max (p : Str) (ws : List Str)
    (hpne : p ≠ []) (hpt : ∀ c ∈ p, ¬ c = '\t')
    (hph : ∀ c ∈ p.take 1, c.isWhitespace = false)
    (hws : ∀ w ∈ ws, isDigitsOnly w = true) (hne : ws ≠ []) :
    ∃ v, lookupW (read_phrase_weights (ws.map (weightLine p))) p = some v
      ∧ isDigitsOnly v = true
      ∧ strToNat v = (ws.map strToNat).foldl max 0 := by
  cases ws with
  | nil => exact absurd rfl hne
  | cons w0 rest =>
    have hw0 : isDigitsOnly w0 = true := hws w0 (by simp)
    have hrest : ∀ x ∈ rest, isDigitsOnly x = true := fun x hx => hws x (by simp [hx])
    unfold read_phrase_weights
    simp only [List.map_cons, List.foldl_cons]
    rw [weightLine_step_digits_none p w0 [] hpne hpt hph hw0 rfl]
    have hlk0 : lookupW (([] : WeightMap) ++ [(p, w0)]) p = some w0 := by simp [lookupW]
    obtain ⟨v, h1, h2, h3⟩ := read_weights_fold_digits p hpne hpt hph rest
      (([] : WeightMap) ++ [(p, w0)]) w0 hrest hlk0 hw0
    refine ⟨v, h1, h2, ?_⟩
    rw [h3]
    simp [Nat.zero_max]

/-- Folding `max` over a list is invariant under permutation. -/
theorem foldl_max_perm {l1 l2 : List Nat} (h : List.Perm l1 l2) :
    ∀ a : Nat, l1.foldl max a = l2.foldl max a := by
  induction h with
  | nil => intro a; rfl
  | cons x _ ih => intro a; simp only [List.foldl_cons]; exact ih _
  | swap x y l => intro a; simp only [List.foldl_cons]; congr 1; omega
  | trans _ _ ih1 ih2 => intro a; rw [ih1 a, ih2 a]

/-- C5: for any sequence of weight-table lines giving the same phrase
numeric weights, the loaded store holds a numeric value equal to the
maximum of all observed values, and a permutation of the lines yields the
same stored value. -/
theorem weight_merge_max_order_independent (p : Str) (ws ws2 : List Str)
    (hpne : p ≠ []) (hpt : ∀ c ∈ p, ¬ c = '\t')
    (hph : ∀ c ∈ p.take 1, c.isWhitespace = false)
    (hws : ∀ w ∈ ws, isDigitsOnly w = true) (hne : ws ≠ [])
    (hperm : List.Perm ws ws2) :
    ∃ v v2,
      lookupW (read_phrase_weights (ws.map (weightLine p))) p = some v
      ∧ lookupW (read_phrase_weights (ws2.map (weightLine p))) p = some v2
      ∧ strToNat v = (ws.map strToNat).foldl max 0
      ∧ strToNat v2 = strToNat v := by
  have hws2 : ∀ w ∈ ws2, isDigitsOnly w = true := fun w hw => hws w (hperm.mem_iff.mpr hw)
  have hne2 : ws2 ≠ [] := by
    intro h; subst h; exact hne hperm.eq_nil
  obtain ⟨v, h1, _, h3⟩ := read_phrase_weights_digits_max p ws hpne hpt hph hws hne
  obtain ⟨v2, h1', _, h3'⟩ := read_phrase_weights_digits_max p ws2 hpne hpt hph hws2 hne2
  refine ⟨v, v2, h1, h1', h3, ?_⟩
  rw [h3', h3]
  exact (foldl_max_perm (hperm.map strToNat) 0).symm

/-- C5 witness: 打 with weight 5 then 9 stores the value 9 (the fold max),
and the reversed order stores the same value. -/
theorem weight_merge_max_order_independent_witness :
    ∃ v v2,
      lookupW (read_phrase_weights ([['5'], ['9']].map (weightLine ['打']))) ['打'] = some v
      ∧ lookupW (read_phrase_weights ([['9'], ['5']].map (weightLine ['打']))) ['打'] = some v2
      ∧ strToNat v = ([['5'], ['9']].map strToNat).foldl max 0
      ∧ strToNat v2 = strToNat v :=
  weight_merge_max_order_independent ['打'] [['5'], ['9']] [['9'], ['5']]
    (by decide) (by decide) (by decide) (by decide) (by decide)
    (List.Perm.swap ['9'] ['5'] [])

/-- C4 counterexample: the single line 打 TAB abc stores the original
malformed string "abc" for 打, not "0" — the malformed weight is not
coerced to zero in the store. -/
theorem malformed_weight_stored_counterexample :
    lookupW (read_phrase_weights [['打', '\t', 'a', 'b', 'c']]) ['打']
        = some ['a', 'b', 'c']
    ∧ ¬ lookupW (read_phrase_weights [['打', '\t', 'a', 'b', 'c']]) ['打']
        = some ['0'] := by
  decide

/-- C4 (amended): a line whose weight does not match the digits regex is
neither rejected nor coerced to zero in the store: for a new phrase the
original malformed string itself is stored; the weight only *compares* as
0 during merging, so it never displaces an existing numeric value. -/
theorem malformed_weight_treated_zero_amended (p w v : Str) (pw : WeightMap)
    (hpne : p ≠ []) (hpt : ∀ c ∈ p, ¬ c = '\t')
    (hph : ∀ c ∈ p.take 1, c.isWhitespace = false)
    (hwne : w ≠ []) (hwt : ∀ c ∈ w, ¬ c = '\t')
    (hwnws : ∀ c ∈ w, c.isWhitespace = false)
    (hmal : isDigitsOnly w = false) :
    (lookupW pw p = none →
      read_phrase_weights_line pw (weightLine p w) = pw ++ [(p, w)])
    ∧ (lookupW pw p = some v → isDigitsOnly v = true →
      read_phrase_weights_line pw (weightLine p w) = pw) := by
  constructor
  · intro hlk
    rw [weightLine_step p w pw hpne hpt hph hwne hwt hwnws]
    simp [hlk]
  · intro hlk hv
    rw [weightLine_step p w pw hpne hpt hph hwne hwt hwnws]
    simp only [hlk, pyIntParse_digits hv, hmal, Bool.false_eq_true, if_false]
    rw [if_neg (by omega)]

/-- C4 witness: the amended statement at the concrete line 打 TAB abc,
against an empty store and against a store holding 打 with weight 7. -/
theorem malformed_weight_treated_zero_amended_witness :
    read_phrase_weights_line [] (weightLine ['打'] ['a', 'b', 'c'])
        = [] ++ [(['打'], ['a', 'b', 'c'])]
    ∧ read_phrase_weights_line [(['打'], ['7'])] (weightLine ['打'] ['a', 'b', 'c'])
        = [(['打'], ['7'])] :=
  ⟨(malformed_weight_treated_zero_amended ['打'] ['a', 'b', 'c'] ['7'] []
      (by decide) (by decide) (by decide) (by decide) (by decide) (by decide)
      (by decide)).1 rfl,
   (malformed_weight_treated_zero_amended ['打'] ['a', 'b', 'c'] ['7'] [(['打'], ['7'])]
      (by decide) (by decide) (by decide) (by decide) (by decide) (by decide)
      (by decide)).2 (by decide) (by decide)⟩
